import Mathlib

/-!
Shallow embedding of the query-evaluation core of the employee data browser
(src/backend/server.js): the filter stage (applyFilters), the sort stage
(applySort) and the pagination stage (paginate), together with the JavaScript
value coercions those functions rely on.

Records are association lists from field names to runtime values; a missing
field models the JavaScript value undefined.  JavaScript numbers are modelled
as integers (the repository's data and filter values only use integral
numbers); NaN is modelled explicitly by the JSNum type, since the code's
numeric coercions can produce it.  The locale-aware string comparison
localeCompare is modelled as lexicographic comparison on strings.
-/

namespace QueryEngine

/-- A JavaScript runtime value that can occur in a record field: a string,
a (integral) number, or null.  The JavaScript value undefined is modelled by
absence, i.e. by Option.none at lookup sites. -/
inductive Value where
  | str (s : String)
  | num (n : Int)
  | null
deriving DecidableEq, Repr

/-- A record is a mapping from field names to values (server.js works on plain
JSON objects).  Lookup of a field that is not present returns none, modelling
the JavaScript access record[field] evaluating to undefined. -/
abbrev Record : Type := List (String × Value)

/-- Field access record[filter.field] from server.js lines 31 and 66-67:
none models the JavaScript result undefined. -/
def getField (r : Record) (f : String) : Option Value :=
  List.lookup f r

/-- A JavaScript number that may be NaN: the numeric coercions in the filter
and sort code can produce NaN (for example Number of a non-numeric string, or
subtraction involving undefined). -/
inductive JSNum where
  | num (n : Int)
  | nan
deriving DecidableEq, Repr

/-- Accumulating decimal parser over a character list: some value when every
character is an ASCII digit, none otherwise. -/
def digitsToNatAux (acc : Nat) : List Char → Option Nat
  | [] => some acc
  | c :: cs =>
    if 48 ≤ c.toNat ∧ c.toNat ≤ 57 then
      digitsToNatAux (acc * 10 + (c.toNat - 48)) cs
    else none

/-- Decimal parse of a non-empty all-digit character list. -/
def digitsToNat? : List Char → Option Nat
  | [] => none
  | c :: cs => digitsToNatAux 0 (c :: cs)

/-- JavaScript Number(s) on the strings this program feeds it: the empty
string coerces to 0, a decimal integer literal (optionally negative) to its
value, anything else to NaN. -/
def jsStrToNum (s : String) : JSNum :=
  match s.data with
  | [] => JSNum.num 0
  | c :: rest =>
    if c = Char.ofNat 45 then
      match digitsToNat? rest with
      | some n => JSNum.num (-(n : Int))
      | none => JSNum.nan
    else
      match digitsToNat? (c :: rest) with
      | some n => JSNum.num (n : Int)
      | none => JSNum.nan

/-- JavaScript Number(x) applied to a record field value (undefined coerces to
NaN, null to 0, a string via the numeric parse). -/
def toNumber : Option Value → JSNum
  | none => JSNum.nan
  | some Value.null => JSNum.num 0
  | some (Value.num n) => JSNum.num n
  | some (Value.str s) => jsStrToNum s

/-- JavaScript subtraction: any NaN operand yields NaN. -/
def jsSub : JSNum → JSNum → JSNum
  | JSNum.num a, JSNum.num b => JSNum.num (a - b)
  | _, _ => JSNum.nan

/-- JavaScript unary minus: minus NaN is NaN. -/
def jsNeg : JSNum → JSNum
  | JSNum.num a => JSNum.num (-a)
  | JSNum.nan => JSNum.nan

/-- JavaScript strict greater-than: any comparison with NaN is false. -/
def jsGtB : JSNum → JSNum → Bool
  | JSNum.num a, JSNum.num b => b < a
  | _, _ => false

/-- JavaScript strict less-than: any comparison with NaN is false. -/
def jsLtB : JSNum → JSNum → Bool
  | JSNum.num a, JSNum.num b => a < b
  | _, _ => false

/-- JavaScript greater-or-equal: any comparison with NaN is false. -/
def jsGeB : JSNum → JSNum → Bool
  | JSNum.num a, JSNum.num b => b ≤ a
  | _, _ => false

/-- JavaScript less-or-equal: any comparison with NaN is false. -/
def jsLeB : JSNum → JSNum → Bool
  | JSNum.num a, JSNum.num b => a ≤ b
  | _, _ => false

/-- JavaScript String.prototype.toLowerCase (the code only lowercases ASCII
data).  Defined over the character list so that it evaluates by kernel
reduction. -/
def jsToLower (s : String) : String :=
  String.mk (s.data.map Char.toLower)

/-- JavaScript String(x) on a present record value. -/
def jsToString : Value → String
  | Value.str s => s
  | Value.num n => toString n
  | Value.null => "null"

/-- JavaScript ToString including the absent case: String of undefined is the
string "undefined".  The sort comparator reaches this case, because
localeCompare coerces its argument to a string. -/
def jsToStringOpt : Option Value → String
  | some v => jsToString v
  | none => "undefined"

/-- Helper for the substring test of the contains operator: does the needle
occur as a contiguous run inside the haystack? -/
def hasSubAux (needle : List Char) : List Char → Bool
  | [] => needle.isPrefixOf []
  | c :: rest => needle.isPrefixOf (c :: rest) || hasSubAux needle rest

/-- JavaScript String.prototype.includes. -/
def strContainsStr (hay needle : String) : Bool :=
  hasSubAux needle.toList hay.toList

/-- One filter condition as decoded from the request: field name, operator
name and comparison value, all strings (types.ts declares value: string, and
server.js switches on the operator string). -/
structure Filter where
  field : String
  operator : String
  value : String
deriving DecidableEq, Repr

/-- Evaluation of one filter condition against one record: the body of the
inner map in applyFilters (server.js lines 30-55).  An absent (undefined) or
null field value short-circuits to false; otherwise the switch on the operator
string runs, with unknown operators falling through to false. -/
def evalCond (record : Record) (f : Filter) : Bool :=
  match getField record f.field with
  | none => false
  | some Value.null => false
  | some v =>
    let filterValue := f.value
    if f.operator = "equals" then jsToLower (jsToString v) == jsToLower filterValue
    else if f.operator = "contains" then
      strContainsStr (jsToLower (jsToString v)) (jsToLower filterValue)
    else if f.operator = ">" then jsGtB (toNumber (some v)) (jsStrToNum filterValue)
    else if f.operator = "<" then jsLtB (toNumber (some v)) (jsStrToNum filterValue)
    else if f.operator = ">=" then jsGeB (toNumber (some v)) (jsStrToNum filterValue)
    else if f.operator = "<=" then jsLeB (toNumber (some v)) (jsStrToNum filterValue)
    else if f.operator = "startsWith" then
      (jsToLower (jsToString v)).startsWith (jsToLower filterValue)
    else if f.operator = "endsWith" then
      (jsToLower (jsToString v)).endsWith (jsToLower filterValue)
    else false

/-- The filter stage applyFilters (server.js lines 26-60): an empty condition
list returns the input unchanged; otherwise each record is kept according to
the per-condition results reduced with some for OR and every for any other
combinator value (AND is the default). -/
def applyFilters (data : List Record) (filters : List Filter) (logic : String) :
    List Record :=
  if filters.isEmpty then data
  else
    data.filter fun record =>
      let results := filters.map fun f => evalCond record f
      if logic == "OR" then results.any fun r => r else results.all fun r => r

/-- Lexicographic three-way comparison of character lists by code point. -/
def lexCmpChars : List Char → List Char → Int
  | [], [] => 0
  | [], _ :: _ => -1
  | _ :: _, [] => 1
  | c :: cs, d :: ds =>
    if c.toNat < d.toNat then -1
    else if d.toNat < c.toNat then 1
    else lexCmpChars cs ds

/-- Model of String.prototype.localeCompare restricted to lexicographic
code-point comparison (which agrees with locale order on the ASCII data this
repository holds): negative, zero or positive according to the comparison. -/
def localeCmp (s t : String) : Int :=
  lexCmpChars s.data t.data

/-- The raw comparator body of applySort (server.js lines 66-74): branch on
the runtime type of the first operand; a string uses localeCompare (which
coerces the second operand to a string), anything else uses numeric
subtraction (which yields NaN when an operand does not coerce to a number). -/
def rawCompare (sortField : String) (a b : Record) : JSNum :=
  let aVal := getField a sortField
  let bVal := getField b sortField
  match aVal with
  | some (Value.str s) => JSNum.num (localeCmp s (jsToStringOpt bVal))
  | _ => jsSub (toNumber aVal) (toNumber bVal)

/-- The full comparator passed to Array.prototype.sort (server.js lines 65-77)
including the descending negation, normalised the way the ECMAScript sort
normalises a comparator result: a NaN result counts as 0. -/
def sortCompare (sortField sortOrder : String) (a b : Record) : Int :=
  match (if sortOrder == "desc" then jsNeg (rawCompare sortField a b)
         else rawCompare sortField a b) with
  | JSNum.num n => n
  | JSNum.nan => 0

/-- The Boolean not-greater relation induced by the comparator; a stable sort
with respect to this relation is the model of Array.prototype.sort. -/
def recLe (sortField sortOrder : String) (a b : Record) : Bool :=
  decide (sortCompare sortField sortOrder a b ≤ 0)

/-- The sort stage applySort (server.js lines 62-78): a missing sort field
returns the input unchanged, otherwise a stable sort (ECMAScript guarantees
Array.prototype.sort is stable) by the comparator. -/
def applySort (data : List Record) (sortField : Option String) (sortOrder : String) :
    List Record :=
  match sortField with
  | none => data
  | some f => data.mergeSort (recLe f sortOrder)

/-- The result shape of paginate: the page slice, the pre-pagination count and
the has-more flag. -/
structure PageResult where
  data : List Record
  total : Nat
  hasMore : Bool
deriving DecidableEq, Repr

/-- The pagination stage paginate (server.js lines 80-88): slice
[page*limit, page*limit+limit), total is the input length, hasMore is whether
the end offset is strictly below the input length. -/
def paginate (data : List Record) (page limit : Nat) : PageResult :=
  let start := page * limit
  { data := (data.drop start).take limit
    total := data.length
    hasMore := decide (start + limit < data.length) }

/-- Concatenation of the page contents of pages k, k+1, ... of the given data,
stopping (inclusively) at the first page whose hasMore flag is false.  The
extra fuel argument only forces termination; for a positive page size, fuel
equal to the number of records always reaches the first page with hasMore
false, so the fuel never truncates the enumeration. -/
def concatPagesFrom (data : List Record) (limit : Nat) : Nat → Nat → List Record
  | k, 0 => (paginate data k limit).data
  | k, fuel + 1 =>
    let p := paginate data k limit
    if p.hasMore then p.data ++ concatPagesFrom data limit (k + 1) fuel
    else p.data

/-- Concatenation of the page contents of page 0, page 1, ... up to and
including the first page whose hasMore flag is false. -/
def concatAllPages (data : List Record) (limit : Nat) : List Record :=
  concatPagesFrom data limit 0 data.length

/-! ### Sample data for concrete instantiations

The three records of the spec scenario in section 8. -/

/-- The record Bob from the spec scenario. -/
def sampleBob : Record := [("name", Value.str "Bob"), ("age", Value.num 30)]

/-- The record Amy from the spec scenario. -/
def sampleAmy : Record := [("name", Value.str "Amy"), ("age", Value.num 25)]

/-- The record Cid from the spec scenario. -/
def sampleCid : Record := [("name", Value.str "Cid"), ("age", Value.num 25)]

/-- The record set of the spec scenario, in its input order. -/
def sampleEmployees : List Record := [sampleBob, sampleAmy, sampleCid]

/-! ### Pagination -/

/-- C3: for every input sequence, page index and positive page size, paginate
returns total equal to the length of its input and hasMore true iff the page
end offset (page index times page size, plus page size) is strictly less than
total. -/
theorem paginate_total_hasMore (data : List Record) (page limit : Nat)
    (hpos : 0 < limit) :
    (paginate data page limit).total = data.length ∧
    ((paginate data page limit).hasMore = true ↔
      page * limit + limit < data.length) := by
  refine ⟨rfl, ?_⟩
  simp [paginate]

/-- Witness for C3: the theorem applied to the scenario data, page 0 of
size 2. -/
theorem paginate_total_hasMore_witness :
    (paginate sampleEmployees 0 2).total = sampleEmployees.length ∧
    ((paginate sampleEmployees 0 2).hasMore = true ↔
      0 * 2 + 2 < sampleEmployees.length) :=
  paginate_total_hasMore sampleEmployees 0 2 (by decide)

/-- C9: an out-of-range slice (page start offset at or beyond the end of the
sequence) yields an empty page with hasMore false rather than an error, and
filtering with an empty filter set is likewise a total, handled case that
returns the input.  Errors cannot occur in the embedding: all three stage
functions are total. -/
theorem paginate_out_of_range (data : List Record) (page limit : Nat)
    (h : data.length ≤ page * limit) :
    (paginate data page limit).data = [] ∧
    (paginate data page limit).hasMore = false ∧
    ∀ logic, applyFilters data [] logic = data := by
  refine ⟨?_, ?_, fun logic => rfl⟩
  · simp [paginate, List.drop_eq_nil_of_le h]
  · simp only [paginate, decide_eq_false_iff_not]
    omega

/-- Witness for C9: page 5 of size 2 over the three scenario records. -/
theorem paginate_out_of_range_witness :
    (paginate sampleEmployees 5 2).data = [] ∧
    (paginate sampleEmployees 5 2).hasMore = false ∧
    ∀ logic, applyFilters sampleEmployees [] logic = sampleEmployees :=
  paginate_out_of_range sampleEmployees 5 2 (by decide)

/-! ### Filtering -/

/-- C4: filtering with zero conditions returns the input unchanged, for every
combinator value, with the same cardinality and order (it is the very same
list). -/
theorem applyFilters_empty (data : List Record) (logic : String) :
    applyFilters data [] logic = data := rfl

/-- C10: for every record set, filter set and combinator, the output of the
filter stage is a subsequence of its input: every kept record occurs in the
input, kept records retain their relative input order, and no input occurrence
is duplicated (all three are what List.Sublist states). -/
theorem applyFilters_sublist (data : List Record) (filters : List Filter)
    (logic : String) : (applyFilters data filters logic).Sublist data := by
  unfold applyFilters
  split
  · exact List.Sublist.refl data
  · exact List.filter_sublist data

/-- C5: a condition whose field value is absent on the record (undefined,
i.e. an unknown or missing field name, or null) evaluates to false, whatever
the operator. -/
theorem evalCond_absent (r : Record) (c : Filter)
    (h : getField r c.field = none ∨ getField r c.field = some Value.null) :
    evalCond r c = false := by
  unfold evalCond
  rcases h with h | h <;> rw [h]

/-- Witness for C5: a numeric comparison against a field the empty record does
not have. -/
theorem evalCond_absent_witness :
    evalCond [] ⟨"salary", ">", "100"⟩ = false :=
  evalCond_absent [] ⟨"salary", ">", "100"⟩ (Or.inl rfl)

/-- C6 counterexample: the claim "equals evaluates true iff the
case-insensitive string forms of the field value and the condition value are
equal" fails on the record with no fields and the condition value "undefined":
JavaScript String(undefined) is the string "undefined", so the two string
forms coincide, yet the code short-circuits an absent field value to false
before the operator runs. -/
theorem evalCond_equals_counterexample :
    ¬ (evalCond [] ⟨"name", "equals", "undefined"⟩ = true ↔
       jsToLower (jsToStringOpt (getField ([] : Record) "name")) =
         jsToLower "undefined") := by
  decide

/-- C6 amended: for a condition with operator equals whose field value is
present on the record (and not null), the condition evaluates true iff the
case-insensitive string forms of the field value and the condition value are
equal; when the field value is absent or null the condition is false (that
case is governed by the absent-value rule). -/
theorem evalCond_equals_present (r : Record) (c : Filter) (v : Value)
    (hop : c.operator = "equals") (hget : getField r c.field = some v)
    (hnn : v ≠ Value.null) :
    (evalCond r c = true ↔ jsToLower (jsToString v) = jsToLower c.value) := by
  obtain ⟨f, op, val⟩ := c
  simp only at hop hget ⊢
  subst hop
  unfold evalCond
  rw [hget]
  cases v with
  | null => exact absurd rfl hnn
  | str s => simp
  | num n => simp

/-- Witness for C6 amended: the record Bob matched case-insensitively against
the condition value BOB. -/
theorem evalCond_equals_present_witness :
    (evalCond [("name", Value.str "Bob")] ⟨"name", "equals", "BOB"⟩ = true ↔
      jsToLower (jsToString (Value.str "Bob")) = jsToLower "BOB") :=
  evalCond_equals_present [("name", Value.str "Bob")] ⟨"name", "equals", "BOB"⟩
    (Value.str "Bob") rfl rfl (by decide)

/-- C1: for a non-empty filter set, the AND combinator keeps exactly the
records on which every condition evaluates true, the OR combinator keeps
exactly the records on which at least one condition evaluates true, and the
order of the conditions does not affect which records are kept (any
permutation of the filter set yields the same output, for any combinator). -/
theorem applyFilters_combinator (data : List Record) (filters : List Filter)
    (hne : filters ≠ []) :
    (∀ r : Record, r ∈ applyFilters data filters "AND" ↔
        r ∈ data ∧ ∀ c ∈ filters, evalCond r c = true) ∧
    (∀ r : Record, r ∈ applyFilters data filters "OR" ↔
        r ∈ data ∧ ∃ c ∈ filters, evalCond r c = true) ∧
    (∀ (filters₂ : List Filter) (logic : String), filters.Perm filters₂ →
        applyFilters data filters logic = applyFilters data filters₂ logic) := by
  have hie : filters.isEmpty = false := by
    simpa [List.isEmpty_iff] using hne
  refine ⟨?_, ?_, ?_⟩
  · intro r
    simp [applyFilters, hie, List.mem_filter]
  · intro r
    simp [applyFilters, hie, List.mem_filter]
  · intro filters₂ logic hp
    have hie₂ : filters₂.isEmpty = false := by
      have : filters₂ ≠ [] := by
        intro h
        exact hne (List.eq_nil_of_length_eq_zero
          (by rw [hp.length_eq, h]; rfl))
      simpa [List.isEmpty_iff] using this
    simp only [applyFilters, hie, hie₂, Bool.false_eq_true, if_false]
    apply List.filter_congr
    intro r _
    cases h : (logic == "OR") with
    | true =>
      rw [if_pos rfl, if_pos rfl]
      rw [Bool.eq_iff_iff]
      simp only [List.any_eq_true, List.mem_map]
      constructor
      · rintro ⟨b, ⟨c, hc, rfl⟩, hb⟩
        exact ⟨_, ⟨c, hp.mem_iff.mp hc, rfl⟩, hb⟩
      · rintro ⟨b, ⟨c, hc, rfl⟩, hb⟩
        exact ⟨_, ⟨c, hp.mem_iff.mpr hc, rfl⟩, hb⟩
    | false =>
      rw [if_neg Bool.false_ne_true, if_neg Bool.false_ne_true]
      rw [Bool.eq_iff_iff]
      simp only [List.all_eq_true, List.mem_map]
      constructor
      · rintro h b ⟨c, hc, rfl⟩
        exact h _ ⟨c, hp.mem_iff.mpr hc, rfl⟩
      · rintro h b ⟨c, hc, rfl⟩
        exact h _ ⟨c, hp.mem_iff.mp hc, rfl⟩

/-- Witness for C1: the theorem applied to the scenario data with the single
condition age at least 25. -/
theorem applyFilters_combinator_witness :
    (∀ r : Record, r ∈ applyFilters sampleEmployees [⟨"age", ">=", "25"⟩] "AND" ↔
        r ∈ sampleEmployees ∧
          ∀ c ∈ [(⟨"age", ">=", "25"⟩ : Filter)], evalCond r c = true) ∧
    (∀ r : Record, r ∈ applyFilters sampleEmployees [⟨"age", ">=", "25"⟩] "OR" ↔
        r ∈ sampleEmployees ∧
          ∃ c ∈ [(⟨"age", ">=", "25"⟩ : Filter)], evalCond r c = true) ∧
    (∀ (filters₂ : List Filter) (logic : String),
        List.Perm [(⟨"age", ">=", "25"⟩ : Filter)] filters₂ →
        applyFilters sampleEmployees [⟨"age", ">=", "25"⟩] logic =
          applyFilters sampleEmployees filters₂ logic) :=
  applyFilters_combinator sampleEmployees [⟨"age", ">=", "25"⟩] (by decide)

/-! ### Pagination coverage -/

/-- Page k+1 of a sequence has the same contents and the same hasMore flag as
page k of the sequence with the first page-size records removed. -/
theorem paginate_succ (data : List Record) (limit k : Nat) :
    (paginate data (k + 1) limit).data = (paginate (data.drop limit) k limit).data ∧
    (paginate data (k + 1) limit).hasMore = (paginate (data.drop limit) k limit).hasMore := by
  constructor
  · simp only [paginate, List.drop_drop]
    have h1 : (k + 1) * limit = limit + k * limit := by ring
    rw [h1]
  · simp only [paginate, List.length_drop]
    rw [decide_eq_decide]
    have h1 : (k + 1) * limit = k * limit + limit := by ring
    rw [h1]
    generalize k * limit = m
    omega

/-- Page enumeration started at page k+1 coincides with page enumeration
started at page k over the tail of the sequence. -/
theorem concatPagesFrom_shift (limit : Nat) :
    ∀ (fuel : Nat) (data : List Record) (k : Nat),
      concatPagesFrom data limit (k + 1) fuel =
        concatPagesFrom (data.drop limit) limit k fuel := by
  intro fuel
  induction fuel with
  | zero =>
    intro data k
    simp only [concatPagesFrom]
    exact (paginate_succ data limit k).1
  | succ n ih =>
    intro data k
    simp only [concatPagesFrom]
    rw [(paginate_succ data limit k).1, (paginate_succ data limit k).2, ih]

/-- With enough fuel (the page count times the page size bounds the sequence
length), the page enumeration starting at page 0 returns the whole sequence. -/
theorem concatPagesFrom_eq (limit : Nat) :
    ∀ (fuel : Nat) (data : List Record),
      data.length ≤ fuel * limit + limit →
      concatPagesFrom data limit 0 fuel = data := by
  intro fuel
  induction fuel with
  | zero =>
    intro data h
    simp only [Nat.zero_mul, Nat.zero_add] at h
    simp only [concatPagesFrom, paginate, Nat.zero_mul, List.drop_zero]
    exact List.take_of_length_le h
  | succ n ih =>
    intro data h
    simp only [concatPagesFrom]
    by_cases hm : (paginate data 0 limit).hasMore = true
    · rw [if_pos hm, concatPagesFrom_shift, ih]
      · simp only [paginate, Nat.zero_mul, List.drop_zero]
        exact List.take_append_drop limit data
      · have h1 : (n + 1) * limit = n * limit + limit := by ring
        rw [h1] at h
        simp only [List.length_drop]
        generalize n * limit = m at h ⊢
        omega
    · rw [if_neg hm]
      simp only [paginate, Nat.zero_mul, Nat.zero_add, decide_eq_true_eq,
        List.drop_zero] at hm ⊢
      exact List.take_of_length_le (by omega)

/-- C2: for every record sequence and positive page size, concatenating the
page contents of page 0, page 1, ... up to and including the first page whose
hasMore flag is false reconstructs the sequence exactly, in order, with no
duplicates and no omissions. -/
theorem concatAllPages_eq (data : List Record) (limit : Nat) (h : 0 < limit) :
    concatAllPages data limit = data := by
  unfold concatAllPages
  apply concatPagesFrom_eq
  have h2 : data.length * 1 ≤ data.length * limit := Nat.mul_le_mul_left _ h
  simp only [Nat.mul_one] at h2
  omega

/-- Witness for C2: the scenario data paged with page size 2. -/
theorem concatAllPages_eq_witness :
    concatAllPages sampleEmployees 2 = sampleEmployees :=
  concatAllPages_eq sampleEmployees 2 (by decide)

/-! ### Sorting

The comparator in applySort branches on the runtime type of the first operand
(server.js line 70).  On a record set whose sort-field values mix strings and
numbers, or where some records lack the field, the resulting comparator is not
a consistent total preorder, and then neither stability nor any defined order
is guaranteed.  The records below exhibit this: the sort key of mixedZ is the
string "9" while the other keys are numbers. -/

/-- Mixed-type record: sort key is the number 20. -/
def mixedW : Record := [("k", Value.num 20), ("id", Value.str "w")]

/-- Mixed-type record: sort key is the string "9". -/
def mixedZ : Record := [("k", Value.str "9"), ("id", Value.str "z")]

/-- Mixed-type record: sort key is the number 9. -/
def mixedC : Record := [("k", Value.num 9), ("id", Value.str "c")]

/-- First of the two records with the equal sort key 10. -/
def mixedX : Record := [("k", Value.num 10), ("id", Value.str "x")]

/-- Second of the two records with the equal sort key 10. -/
def mixedY : Record := [("k", Value.num 10), ("id", Value.str "y")]

/-- The record set on which the sort reorders the two equal-key records: in
the input mixedX precedes mixedY; in the sorted output mixedY precedes
mixedX. -/
def mixedData : List Record :=
  [mixedW, mixedZ, mixedC, mixedX, mixedY,
   [("k", Value.num 30)], [("k", Value.num 40)], [("k", Value.num 50)]]

unseal List.merge List.mergeSort in
/-- C7 counterexample: sorting mixedData ascending by the field k does not
preserve the relative order of the two records whose sort-key values are equal
(both are the number 10): restricted to that key, the input reads
mixedX, mixedY but the output reads mixedY, mixedX.  The mixed-type comparator
is inconsistent (see the C8 theorem), and the stable sort legitimately
separates the two equal records across the merge. -/
theorem applySort_stability_counterexample :
    ¬ ((applySort mixedData (some "k") "asc").filter
          (fun r => decide (getField r "k" = some (Value.num 10))) =
        mixedData.filter (fun r => decide (getField r "k" = some (Value.num 10)))) := by
  decide

/-- C8: the comparator does not normalise comparisons involving a missing
field value to any defined ordering.  With the string "b" present on one
record and the field missing on the other, comparing in one argument order
consults localeCompare against the literal string "undefined" and yields a
negative answer, while the opposite order degrades to NaN (treated as 0 by the
sort); the comparator is therefore asymmetric and induces no ordering at
all. -/
theorem sortCompare_missing_asymmetric :
    sortCompare "name" "asc" [("name", Value.str "b")] [] < 0 ∧
    sortCompare "name" "asc" [] [("name", Value.str "b")] = 0 := by
  decide

/-- Two merges coincide when the two comparators agree on all pairs drawn from
the two input lists. -/
theorem merge_congr {α : Type} {le le' : α → α → Bool} :
    ∀ (xs ys : List α), (∀ a ∈ xs, ∀ b ∈ ys, le a b = le' a b) →
      List.merge xs ys le = List.merge xs ys le' := by
  intro xs
  induction xs with
  | nil => intro ys _; simp
  | cons x xs ihx =>
    intro ys
    induction ys with
    | nil => intro _; simp
    | cons y ys ihy =>
      intro h
      rw [List.cons_merge_cons, List.cons_merge_cons]
      have hxy : le x y = le' x y :=
        h x (List.mem_cons_self x xs) y (List.mem_cons_self y ys)
      rw [hxy]
      by_cases hc : le' x y = true
      · rw [if_pos hc, if_pos hc]
        congr 1
        exact ihx (y :: ys) fun a ha b hb => h a (List.mem_cons_of_mem x ha) b hb
      · rw [if_neg hc, if_neg hc]
        congr 1
        exact ihy fun a ha b hb => h a ha b (List.mem_cons_of_mem y hb)

/-- Two merge sorts coincide when the two comparators agree on all pairs drawn
from the list being sorted. -/
theorem mergeSort_congr {α : Type} {le le' : α → α → Bool} :
    ∀ (l : List α), (∀ a ∈ l, ∀ b ∈ l, le a b = le' a b) →
      l.mergeSort le = l.mergeSort le'
  | [], _ => by simp
  | [a], _ => by simp
  | a :: b :: xs, h => by
    have hl1 : (List.splitInTwo ⟨a :: b :: xs, rfl⟩).1.1.length < xs.length + 1 + 1 := by
      simp [List.splitInTwo_fst]
      omega
    have hl2 : (List.splitInTwo ⟨a :: b :: xs, rfl⟩).2.1.length < xs.length + 1 + 1 := by
      simp [List.splitInTwo_snd]
      omega
    have hmem1 : ∀ c ∈ (List.splitInTwo ⟨a :: b :: xs, rfl⟩).1.1, c ∈ a :: b :: xs := by
      intro c hc
      rw [List.splitInTwo_fst] at hc
      exact List.mem_of_mem_take hc
    have hmem2 : ∀ c ∈ (List.splitInTwo ⟨a :: b :: xs, rfl⟩).2.1, c ∈ a :: b :: xs := by
      intro c hc
      rw [List.splitInTwo_snd] at hc
      exact List.mem_of_mem_drop hc
    have e1 := mergeSort_congr (List.splitInTwo ⟨a :: b :: xs, rfl⟩).1.1
      fun p hp q hq => h p (hmem1 p hp) q (hmem1 q hq)
    have e2 := mergeSort_congr (List.splitInTwo ⟨a :: b :: xs, rfl⟩).2.1
      fun p hp q hq => h p (hmem2 p hp) q (hmem2 q hq)
    simp only [List.mergeSort]
    rw [e1, e2]
    apply merge_congr
    intro p hp q hq
    rw [List.mem_mergeSort] at hp hq
    exact h p (hmem1 p hp) q (hmem2 q hq)
termination_by l => l.length

/-- A stable sort leaves any class of mutually le-related elements in place:
if the comparison le is transitive and total and every pair of elements
satisfying the predicate p is le-related, then filtering the sorted list by p
returns the same subsequence as filtering the input. -/
theorem mergeSort_filter_fixed {α : Type} {le : α → α → Bool}
    (trans : ∀ a b c, le a b → le b c → le a c)
    (total : ∀ a b, le a b || le b a)
    (l : List α) (p : α → Bool)
    (hp : ∀ a b, p a = true → p b = true → le a b = true) :
    (l.mergeSort le).filter p = l.filter p := by
  have hsub : List.Sublist (l.filter p) l := List.filter_sublist l
  have hpw : (l.filter p).Pairwise fun a b => le a b = true := by
    apply List.pairwise_of_forall_mem_list
    intro a ha b hb
    exact hp a b (List.of_mem_filter ha) (List.of_mem_filter hb)
  have h1 : List.Sublist (l.filter p) (l.mergeSort le) :=
    List.sublist_mergeSort trans total hpw hsub
  have h2 : List.Perm ((l.mergeSort le).filter p) (l.filter p) :=
    (List.mergeSort_perm l le).filter p
  have h3 : List.Sublist (l.filter p) ((l.mergeSort le).filter p) := by
    have h4 := h1.filter p
    rwa [List.filter_eq_self.mpr fun a ha => List.of_mem_filter ha] at h4
  exact (h3.eq_of_length h2.length_eq.symm).symm

/-- Comparing a character list with itself yields 0. -/
theorem lexCmpChars_self : ∀ l, lexCmpChars l l = 0
  | [] => rfl
  | c :: cs => by
    simp only [lexCmpChars]
    rw [if_neg (Nat.lt_irrefl _), if_neg (Nat.lt_irrefl _)]
    exact lexCmpChars_self cs

/-- Swapping the arguments of the comparison negates its result. -/
theorem lexCmpChars_antisymm : ∀ l m, lexCmpChars l m = -lexCmpChars m l
  | [], [] => rfl
  | [], _ :: _ => rfl
  | _ :: _, [] => rfl
  | c :: cs, d :: ds => by
    simp only [lexCmpChars]
    rcases Nat.lt_trichotomy c.toNat d.toNat with h | h | h
    · rw [if_pos h, if_neg (Nat.lt_asymm h), if_pos h]
    · rw [if_neg (by omega), if_neg (by omega), if_neg (by omega), if_neg (by omega)]
      exact lexCmpChars_antisymm cs ds
    · rw [if_neg (Nat.lt_asymm h), if_pos h, if_pos h]
      rfl

/-- The not-greater relation induced by the comparison is transitive. -/
theorem lexCmpChars_trans_nonpos :
    ∀ l m n, lexCmpChars l m ≤ 0 → lexCmpChars m n ≤ 0 → lexCmpChars l n ≤ 0
  | [], _, n, _, _ => by cases n <;> simp [lexCmpChars]
  | c :: cs, [], n, h1, _ => by simp [lexCmpChars] at h1
  | c :: cs, d :: ds, [], _, h2 => by simp [lexCmpChars] at h2
  | c :: cs, d :: ds, e :: es, h1, h2 => by
    simp only [lexCmpChars] at h1 h2 ⊢
    have hcd : c.toNat ≤ d.toNat := by
      by_contra hc
      push_neg at hc
      rw [if_neg (Nat.lt_asymm hc), if_pos hc] at h1
      omega
    have hde : d.toNat ≤ e.toNat := by
      by_contra hc
      push_neg at hc
      rw [if_neg (Nat.lt_asymm hc), if_pos hc] at h2
      omega
    by_cases hce : c.toNat < e.toNat
    · rw [if_pos hce]
      omega
    · rw [if_neg hce, if_neg (by omega)]
      rw [if_neg (by omega), if_neg (by omega)] at h1
      rw [if_neg (by omega), if_neg (by omega)] at h2
      exact lexCmpChars_trans_nonpos cs ds es h1 h2

/-- The string sort key of a record: the value of the sort field when that
value is a string, a default otherwise. -/
def strKey (f : String) (r : Record) : String :=
  match getField r f with
  | some (Value.str s) => s
  | _ => ""

/-- The numeric sort key of a record: the value of the sort field when that
value is a number, a default otherwise. -/
def numKey (f : String) (r : Record) : Int :=
  match getField r f with
  | some (Value.num n) => n
  | _ => 0

/-- The consistent comparator the code's comparator coincides with on records
whose sort-field values are all strings. -/
def strKeyLe (f ord : String) (a b : Record) : Bool :=
  if ord == "desc" then decide (-localeCmp (strKey f a) (strKey f b) ≤ 0)
  else decide (localeCmp (strKey f a) (strKey f b) ≤ 0)

/-- The consistent comparator the code's comparator coincides with on records
whose sort-field values are all numbers. -/
def numKeyLe (f ord : String) (a b : Record) : Bool :=
  if ord == "desc" then decide (-(numKey f a - numKey f b) ≤ 0)
  else decide (numKey f a - numKey f b ≤ 0)

/-- On two records whose sort-field values are strings, the code's comparator
relation agrees with the string-key comparator. -/
theorem recLe_eq_strKeyLe (f ord : String) (a b : Record) (sa sb : String)
    (ha : getField a f = some (Value.str sa)) (hb : getField b f = some (Value.str sb)) :
    recLe f ord a b = strKeyLe f ord a b := by
  cases hd : (ord == "desc") <;>
    simp [recLe, sortCompare, rawCompare, strKeyLe, strKey, ha, hb, hd,
      jsToStringOpt, jsToString, jsNeg]

/-- On two records whose sort-field values are numbers, the code's comparator
relation agrees with the numeric-key comparator. -/
theorem recLe_eq_numKeyLe (f ord : String) (a b : Record) (na nb : Int)
    (ha : getField a f = some (Value.num na)) (hb : getField b f = some (Value.num nb)) :
    recLe f ord a b = numKeyLe f ord a b := by
  cases hd : (ord == "desc") <;>
    simp [recLe, sortCompare, rawCompare, numKeyLe, numKey, ha, hb, hd,
      toNumber, jsSub, jsNeg]

/-- The string-key comparator is transitive. -/
theorem strKeyLe_trans (f ord : String) :
    ∀ a b c, strKeyLe f ord a b = true → strKeyLe f ord b c = true →
      strKeyLe f ord a c = true := by
  intro a b c h1 h2
  unfold strKeyLe localeCmp at h1 h2 ⊢
  cases hd : (ord == "desc") <;> rw [hd] at h1 h2 <;> simp at h1 h2 ⊢
  · exact lexCmpChars_trans_nonpos _ _ _ h1 h2
  · have e1 := lexCmpChars_antisymm (strKey f a).data (strKey f b).data
    have e2 := lexCmpChars_antisymm (strKey f b).data (strKey f c).data
    have e3 := lexCmpChars_antisymm (strKey f a).data (strKey f c).data
    have t := lexCmpChars_trans_nonpos (strKey f c).data (strKey f b).data
      (strKey f a).data (by omega) (by omega)
    omega

/-- The string-key comparator is total. -/
theorem strKeyLe_total (f ord : String) :
    ∀ a b, (strKeyLe f ord a b || strKeyLe f ord b a) = true := by
  intro a b
  unfold strKeyLe localeCmp
  have e := lexCmpChars_antisymm (strKey f a).data (strKey f b).data
  cases hd : (ord == "desc") <;> simp <;> omega

/-- The numeric-key comparator is transitive. -/
theorem numKeyLe_trans (f ord : String) :
    ∀ a b c, numKeyLe f ord a b = true → numKeyLe f ord b c = true →
      numKeyLe f ord a c = true := by
  intro a b c h1 h2
  unfold numKeyLe at h1 h2 ⊢
  cases hd : (ord == "desc") <;> rw [hd] at h1 h2 <;> simp at h1 h2 ⊢ <;> omega

/-- The numeric-key comparator is total. -/
theorem numKeyLe_total (f ord : String) :
    ∀ a b, (numKeyLe f ord a b || numKeyLe f ord b a) = true := by
  intro a b
  unfold numKeyLe
  cases hd : (ord == "desc") <;> simp <;> omega

/-- C7 amended: on a record set whose sort-field values are homogeneously
typed (all strings, or all numbers), the sort is stable: for every sort-key
value, the records carrying that value appear in the sorted output in exactly
their relative input order, in ascending and descending direction alike.  The
restriction to a homogeneously typed sort field is forced by the
counterexample: with mixed string and number keys the type-branching
comparator is inconsistent and equal-key records can be reordered. -/
theorem applySort_stable_homogeneous (data : List Record) (f ord : String)
    (k : Option Value)
    (hhom : (∀ r ∈ data, ∃ s, getField r f = some (Value.str s)) ∨
            (∀ r ∈ data, ∃ n, getField r f = some (Value.num n))) :
    (applySort data (some f) ord).filter (fun r => decide (getField r f = k)) =
      data.filter (fun r => decide (getField r f = k)) := by
  have happ : applySort data (some f) ord = data.mergeSort (recLe f ord) := rfl
  rw [happ]
  rcases hhom with hstr | hnum
  · have hagree : ∀ a ∈ data, ∀ b ∈ data, recLe f ord a b = strKeyLe f ord a b := by
      intro a ha b hb
      obtain ⟨sa, hsa⟩ := hstr a ha
      obtain ⟨sb, hsb⟩ := hstr b hb
      exact recLe_eq_strKeyLe f ord a b sa sb hsa hsb
    rw [mergeSort_congr data hagree]
    apply mergeSort_filter_fixed (strKeyLe_trans f ord) (strKeyLe_total f ord)
    intro a b hpa hpb
    simp only [decide_eq_true_eq] at hpa hpb
    have hk : strKey f a = strKey f b := by
      unfold strKey
      rw [hpa, hpb]
    unfold strKeyLe
    rw [hk]
    have h0 : localeCmp (strKey f b) (strKey f b) = 0 := lexCmpChars_self _
    cases hd : (ord == "desc") <;> simp [h0]
  · have hagree : ∀ a ∈ data, ∀ b ∈ data, recLe f ord a b = numKeyLe f ord a b := by
      intro a ha b hb
      obtain ⟨na, hna⟩ := hnum a ha
      obtain ⟨nb, hnb⟩ := hnum b hb
      exact recLe_eq_numKeyLe f ord a b na nb hna hnb
    rw [mergeSort_congr data hagree]
    apply mergeSort_filter_fixed (numKeyLe_trans f ord) (numKeyLe_total f ord)
    intro a b hpa hpb
    simp only [decide_eq_true_eq] at hpa hpb
    have hk : numKey f a = numKey f b := by
      unfold numKey
      rw [hpa, hpb]
    unfold numKeyLe
    rw [hk]
    cases hd : (ord == "desc") <;> simp

/-- Witness for C7 amended: the scenario data (all ages are numbers) sorted
ascending by age, restricted to the tied key 25. -/
theorem applySort_stable_homogeneous_witness :
    (applySort sampleEmployees (some "age") "asc").filter
        (fun r => decide (getField r "age" = some (Value.num 25))) =
      sampleEmployees.filter (fun r => decide (getField r "age" = some (Value.num 25))) :=
  applySort_stable_homogeneous sampleEmployees "age" "asc" (some (Value.num 25))
    (Or.inr (by
      intro r hr
      simp only [sampleEmployees, List.mem_cons, List.not_mem_nil, or_false] at hr
      rcases hr with rfl | rfl | rfl
      · exact ⟨30, rfl⟩
      · exact ⟨25, rfl⟩
      · exact ⟨25, rfl⟩))

end QueryEngine
